import Mathlib

/-!
Verification development for the Bravais-lattice recognition engine
(`ase/geometry/bravais_type_engine.py`).

The embedding works over exact rationals, represented as integer
fractions (`Frac`, numerator and denominator, denominators kept positive
by the operations and never reduced by a gcd): the float arithmetic of
the source is modelled by exact fraction arithmetic, every comparison the
source makes (`==`, `<`, `>=`, asserts) is modelled by the exact
cross-multiplication comparison of the fractions, norm comparisons are
modelled by comparisons of squared norms (the square root is monotone, so
the comparisons agree), and float tolerances such as `1e-12` are kept as
exact constants.

External collaborators of the engine (the Niggli reduction service and the
canonical-cell recognizer `get_lattice_from_canonical_cell`) are not part
of the analysed sources; they are universally quantified function
parameters of the embedded definitions, so every theorem holds for an
arbitrary behaviour of those collaborators unless stated otherwise.
-/

/-- An exact rational: an integer fraction.  The arithmetic below keeps
denominators positive and never cancels common factors, and every
numerical comparison goes through the exact cross-multiplication
predicates `eqv`, `lt`, `le`. -/
structure Frac where
  num : ℤ
  den : ℤ
deriving DecidableEq, Repr

namespace Frac

def ofInt (n : ℤ) : Frac := ⟨n, 1⟩

def add (a b : Frac) : Frac := ⟨a.num * b.den + b.num * a.den, a.den * b.den⟩

def sub (a b : Frac) : Frac := ⟨a.num * b.den - b.num * a.den, a.den * b.den⟩

def mul (a b : Frac) : Frac := ⟨a.num * b.num, a.den * b.den⟩

def neg (a : Frac) : Frac := ⟨-a.num, a.den⟩

/-- Exact division, with the sign moved to the numerator so denominators
stay positive.  Division by zero yields zero (in the source it occurs only
on degenerate inputs outside every claim considered here). -/
def div (a b : Frac) : Frac :=
  if b.num = 0 then ⟨0, 1⟩
  else if b.num < 0 then ⟨-(a.num * b.den), a.den * -b.num⟩
  else ⟨a.num * b.den, a.den * b.num⟩

/-- Exact equality of the represented rationals. -/
def eqv (a b : Frac) : Prop := a.num * b.den = b.num * a.den

/-- Exact strict order of the represented rationals. -/
def lt (a b : Frac) : Prop := a.num * b.den < b.num * a.den

/-- Exact order of the represented rationals. -/
def le (a b : Frac) : Prop := a.num * b.den ≤ b.num * a.den

instance (a b : Frac) : Decidable (eqv a b) :=
  inferInstanceAs (Decidable (a.num * b.den = b.num * a.den))

instance (a b : Frac) : Decidable (lt a b) :=
  inferInstanceAs (Decidable (a.num * b.den < b.num * a.den))

instance (a b : Frac) : Decidable (le a b) :=
  inferInstanceAs (Decidable (a.num * b.den ≤ b.num * a.den))

/-- `np.floor` (denominators are positive, so flooring division floors the
rational). -/
def floor (a : Frac) : ℤ := Int.fdiv a.num a.den

/-- `np.ceil`. -/
def ceil (a : Frac) : ℤ := -(Int.fdiv (-a.num) a.den)

/-- Absolute value. -/
def absF (a : Frac) : Frac := if a.num < 0 then ⟨-a.num, a.den⟩ else a

/-- Binary maximum, as used to fold `np.abs(...).max()`. -/
def maxF (a b : Frac) : Frac := if lt a b then b else a

/-- `round` to the nearest integer, used to model `np.round` on values the
source asserts to be within `1e-12` of an integer (so ties never occur and
the tie-breaking convention is immaterial). -/
def round (a : Frac) : ℤ := floor (add a ⟨1, 2⟩)

end Frac

/-- A 3-component vector of exact rationals (one row of a cell matrix). -/
structure Vec3 where
  x : Frac
  y : Frac
  z : Frac
deriving DecidableEq, Repr

namespace Vec3

def add (a b : Vec3) : Vec3 := ⟨a.x.add b.x, a.y.add b.y, a.z.add b.z⟩

def sub (a b : Vec3) : Vec3 := ⟨a.x.sub b.x, a.y.sub b.y, a.z.sub b.z⟩

def smul (c : Frac) (a : Vec3) : Vec3 := ⟨c.mul a.x, c.mul a.y, c.mul a.z⟩

/-- Scaling by an integer coefficient (the closest-point enumeration). -/
def zsmul (n : ℤ) (a : Vec3) : Vec3 := smul (Frac.ofInt n) a

/-- Inner product `np.vdot` of two vectors. -/
def dot (a b : Vec3) : Frac :=
  ((a.x.mul b.x).add (a.y.mul b.y)).add (a.z.mul b.z)

/-- Squared Euclidean norm; used to model `np.linalg.norm` comparisons. -/
def sq (a : Vec3) : Frac := dot a a

def zero : Vec3 := ⟨⟨0, 1⟩, ⟨0, 1⟩, ⟨0, 1⟩⟩

end Vec3

/-- A 3x3 matrix of exact rationals, rows `r0 r1 r2` (numpy row-major
layout). -/
structure Mat3 where
  r0 : Vec3
  r1 : Vec3
  r2 : Vec3
deriving DecidableEq, Repr

/-- Build an integer matrix from nine entries, row-major as in
`np.array(op).reshape(3, 3)`. -/
def mkM (a b c d e f g h i : ℤ) : Mat3 :=
  ⟨⟨.ofInt a, .ofInt b, .ofInt c⟩,
   ⟨.ofInt d, .ofInt e, .ofInt f⟩,
   ⟨.ofInt g, .ofInt h, .ofInt i⟩⟩

namespace Mat3

def matId : Mat3 := mkM 1 0 0 0 1 0 0 0 1

def transpose (m : Mat3) : Mat3 :=
  ⟨⟨m.r0.x, m.r1.x, m.r2.x⟩, ⟨m.r0.y, m.r1.y, m.r2.y⟩, ⟨m.r0.z, m.r1.z, m.r2.z⟩⟩

/-- Columns of a matrix, for matrix multiplication. -/
def c0 (m : Mat3) : Vec3 := ⟨m.r0.x, m.r1.x, m.r2.x⟩

def c1 (m : Mat3) : Vec3 := ⟨m.r0.y, m.r1.y, m.r2.y⟩

def c2 (m : Mat3) : Vec3 := ⟨m.r0.z, m.r1.z, m.r2.z⟩

/-- Matrix product `a @ b`. -/
def mul (a b : Mat3) : Mat3 :=
  ⟨⟨Vec3.dot a.r0 b.c0, Vec3.dot a.r0 b.c1, Vec3.dot a.r0 b.c2⟩,
   ⟨Vec3.dot a.r1 b.c0, Vec3.dot a.r1 b.c1, Vec3.dot a.r1 b.c2⟩,
   ⟨Vec3.dot a.r2 b.c0, Vec3.dot a.r2 b.c1, Vec3.dot a.r2 b.c2⟩⟩

def det (m : Mat3) : Frac :=
  ((m.r0.x.mul ((m.r1.y.mul m.r2.z).sub (m.r1.z.mul m.r2.y))).sub
   (m.r0.y.mul ((m.r1.x.mul m.r2.z).sub (m.r1.z.mul m.r2.x)))).add
  (m.r0.z.mul ((m.r1.x.mul m.r2.y).sub (m.r1.y.mul m.r2.x)))

/-- Adjugate matrix (transpose of the cofactor matrix). -/
def adjugate (m : Mat3) : Mat3 :=
  ⟨⟨(m.r1.y.mul m.r2.z).sub (m.r1.z.mul m.r2.y),
    (m.r0.z.mul m.r2.y).sub (m.r0.y.mul m.r2.z),
    (m.r0.y.mul m.r1.z).sub (m.r0.z.mul m.r1.y)⟩,
   ⟨(m.r1.z.mul m.r2.x).sub (m.r1.x.mul m.r2.z),
    (m.r0.x.mul m.r2.z).sub (m.r0.z.mul m.r2.x),
    (m.r0.z.mul m.r1.x).sub (m.r0.x.mul m.r1.z)⟩,
   ⟨(m.r1.x.mul m.r2.y).sub (m.r1.y.mul m.r2.x),
    (m.r0.y.mul m.r2.x).sub (m.r0.x.mul m.r2.y),
    (m.r0.x.mul m.r1.y).sub (m.r0.y.mul m.r1.x)⟩⟩

/-- `np.linalg.inv`: `none` models the `LinAlgError` raised on a singular
matrix; otherwise the exact inverse `det⁻¹ · adjugate`.  (Denominators are
positive by construction, so `det.num = 0` is exact singularity.) -/
def inv (m : Mat3) : Option Mat3 :=
  if m.det.num = 0 then none
  else
    some ⟨⟨(m.adjugate).r0.x.div m.det, (m.adjugate).r0.y.div m.det,
           (m.adjugate).r0.z.div m.det⟩,
          ⟨(m.adjugate).r1.x.div m.det, (m.adjugate).r1.y.div m.det,
           (m.adjugate).r1.z.div m.det⟩,
          ⟨(m.adjugate).r2.x.div m.det, (m.adjugate).r2.y.div m.det,
           (m.adjugate).r2.z.div m.det⟩⟩

/-- The nine entries in row-major (numpy `flat`) order. -/
def flat (m : Mat3) : List Frac :=
  [m.r0.x, m.r0.y, m.r0.z, m.r1.x, m.r1.y, m.r1.z, m.r2.x, m.r2.y, m.r2.z]

end Mat3

/-- Entrywise rounding of a matrix, `op.round().astype(int)`. -/
def matRound (m : Mat3) : Mat3 :=
  ⟨⟨.ofInt m.r0.x.round, .ofInt m.r0.y.round, .ofInt m.r0.z.round⟩,
   ⟨.ofInt m.r1.x.round, .ofInt m.r1.y.round, .ofInt m.r1.z.round⟩,
   ⟨.ofInt m.r2.x.round, .ofInt m.r2.y.round, .ofInt m.r2.z.round⟩⟩

/-- Largest absolute entrywise difference of two matrices,
`np.abs(a - b).max()`. -/
def matAbsErr (a b : Mat3) : Frac :=
  (List.zip a.flat b.flat).foldl
    (fun acc p => acc.maxF (p.1.sub p.2).absF) (.ofInt 0)

/-- The flattened integer key `tuple(int_op.flat[:].tolist())` used for
deduplication in `find_niggli_ops`. -/
def matKey (m : Mat3) : List ℤ := m.flat.map Frac.round

/-- Exact entrywise equality of the rationals of two fraction lists (the
model of a float-array closeness assert, which in exact arithmetic is
exact equality). -/
def listEqv : List Frac → List Frac → Bool
  | [], [] => true
  | a :: as, b :: bs => decide (Frac.eqv a b) && listEqv as bs
  | _, _ => false

/-- Exact entrywise equality of the rationals of two matrices. -/
def matEqv (a b : Mat3) : Bool := listEqv a.flat b.flat

/-- The static `niggli_op_table` of the source, each 9-tuple read row-major
as a 3x3 integer matrix; association-list layout in source key order. -/
def niggli_op_table : List (String × List Mat3) :=
  [("BCC", [mkM 1 0 0 0 1 0 0 0 1]),
   ("BCT", [mkM 1 0 0 0 1 0 0 0 1,
            mkM 0 1 0 0 0 1 1 0 0,
            mkM 0 1 0 1 0 0 1 1 (-1),
            mkM (-1) 0 1 0 1 0 (-1) 1 0,
            mkM 1 1 0 1 0 0 0 0 (-1)]),
   ("CUB", [mkM 1 0 0 0 1 0 0 0 1]),
   ("FCC", [mkM 1 0 0 0 1 0 0 0 1]),
   ("HEX", [mkM 1 0 0 0 1 0 0 0 1, mkM 0 1 0 0 0 1 1 0 0]),
   ("ORC", [mkM 1 0 0 0 1 0 0 0 1]),
   ("ORCC", [mkM 1 0 0 0 1 0 0 0 1,
             mkM 1 0 (-1) 1 0 0 0 (-1) 0,
             mkM (-1) 1 0 (-1) 0 0 0 0 1,
             mkM 0 1 0 0 0 1 1 0 0,
             mkM 0 (-1) 1 0 (-1) 0 1 0 0]),
   ("ORCF", [mkM 0 (-1) 0 0 1 (-1) 1 0 0, mkM (-1) 0 0 1 0 1 1 1 0]),
   ("ORCI", [mkM 0 0 (-1) 0 (-1) 0 (-1) 0 0,
             mkM 0 0 1 (-1) 0 0 (-1) (-1) 0,
             mkM 0 1 0 1 0 0 1 1 (-1),
             mkM 0 (-1) 0 1 0 (-1) 1 (-1) 0]),
   ("RHL", [mkM 0 (-1) 0 1 1 1 (-1) 0 0,
            mkM 1 0 0 0 1 0 0 0 1,
            mkM 1 (-1) 0 1 0 (-1) 1 0 0]),
   ("TET", [mkM 1 0 0 0 1 0 0 0 1, mkM 0 1 0 0 0 1 1 0 0]),
   ("MCL", [mkM 0 (-1) 0 (-1) 0 0 0 0 (-1),
            mkM (-1) 0 0 0 1 0 0 0 (-1),
            mkM (-1) 0 0 0 0 1 0 1 0,
            mkM 0 0 (-1) 1 0 0 0 (-1) 0,
            mkM 1 0 0 0 (-1) 0 0 0 (-1),
            mkM 0 1 0 (-1) 0 0 0 0 1,
            mkM (-1) 0 0 0 0 (-1) 0 (-1) 0,
            mkM 1 0 0 0 1 0 0 0 1]),
   ("MCLC", [mkM 0 (-1) 0 (-1) 0 0 0 0 (-1),
             mkM (-1) 0 0 0 1 0 0 0 (-1),
             mkM 1 0 0 0 (-1) 0 0 0 (-1),
             mkM (-1) 0 0 0 (-1) 0 0 0 1,
             mkM 0 1 0 (-1) 0 0 0 0 1,
             mkM 1 0 0 0 1 0 0 0 1,
             mkM 0 (-1) 0 (-1) 0 (-1) 0 0 (-1),
             mkM (-1) 0 (-1) 0 1 0 0 0 (-1),
             mkM 0 1 0 1 0 0 0 0 (-1),
             mkM (-1) 0 (-1) 0 (-1) 0 0 0 1,
             mkM 0 (-1) 0 1 0 0 0 0 1,
             mkM 1 0 1 0 (-1) 0 0 0 (-1),
             mkM 0 0 1 (-1) 0 0 0 (-1) 0,
             mkM (-1) 0 0 0 1 1 0 0 (-1),
             mkM 1 0 1 0 1 0 0 0 1])]

/-- `niggli_op_table[name]`: `none` models the `KeyError` raised by a
missing dictionary key. -/
def tableLookup (name : String) : Option (List Mat3) :=
  (niggli_op_table.find? (fun p => p.1 = name)).map (·.2)

/-- Modelled from the spec: `bravais_names` lives in the external module
`ase.geometry.bravais`, not among the analysed sources.  The spec fixes the
canonical enumeration as the 14 class names in this order. -/
def bravais_names : List String :=
  ["CUB", "FCC", "BCC", "TET", "BCT", "ORC", "ORCC", "ORCF", "ORCI",
   "HEX", "RHL", "MCL", "MCLC", "TRI"]

/-- Modelled from the spec: the dimension attribute
`bravais_lattices[name].ndim` of the external lattice classes.  All 14
canonical Bravais classes of the spec are three-dimensional. -/
def ndimOf (_name : String) : Nat := 3

/-- The class names `identify_lattice` actually scans: the canonical
enumeration with `TRI` and the classes of dimension below 3 skipped. -/
def scanNames : List String :=
  bravais_names.filter (fun n => decide (n ≠ "TRI") && decide (3 ≤ ndimOf n))

/-- The lattice object returned by the external recognizer
`get_lattice_from_canonical_cell`: a class name plus canonical parameters
(abstracted as a list of exact rationals). -/
structure BLat where
  name : String
  par : List Frac
deriving DecidableEq, Repr

/-- The three failure signals of the recognizer caught by `check_type`:
`AssertionError`, `UnconventionalLattice`, `RuntimeError`. -/
inductive RecogErr where
  | assertionFailure : RecogErr
  | unconventionalLattice : RecogErr
  | runtimeFailure : RecogErr
deriving DecidableEq, Repr

/-- The external canonical-cell recognizer, abstracted: given the candidate
cell and `eps` it either returns a lattice object or one of the three
failure signals. -/
def Recognizer : Type := Mat3 → Frac → Except RecogErr BLat

/-- Modelled from the spec: `Cell.cellpar` (cell lengths and angles) is
external code.  In exact arithmetic the six lengths/angles are determined
by, and determine, the Gram data below (squared row norms and pairwise row
inner products), so a cell's parameters are modelled by that list. -/
def cellParams (m : Mat3) : List Frac :=
  [Vec3.sq m.r0, Vec3.sq m.r1, Vec3.sq m.r2,
   Vec3.dot m.r0 m.r1, Vec3.dot m.r0 m.r2, Vec3.dot m.r1 m.r2]

/-- The errors that can escape the classification entry point:
a missing table key (`KeyError`), a singular-matrix inversion
(`np.linalg.LinAlgError`, caught nowhere), and the terminal
`RuntimeError` carrying the parameters of the unrecognized cell. -/
inductive EngineErr where
  | keyErr : String → EngineErr
  | linAlgErr : EngineErr
  | unrecognized : List Frac → EngineErr
deriving DecidableEq, Repr

/-- The loop body of `check_type` over the table transforms: for each `op`,
form `candidate = inv(op.T) @ rcell`, call the recognizer, treat each of
its three failure signals as a skip, discard `TRI` results, and collect the
accepted `(lat, op)` pairs in order. -/
def checkOps (recog : Recognizer) (rcell : Mat3) (eps : Frac) :
    List Mat3 → Except EngineErr (List (BLat × Mat3))
  | [] => .ok []
  | t :: ts =>
    match (t.transpose).inv with
    | none => .error .linAlgErr
    | some ti =>
      match recog (ti.mul rcell) eps with
      | .error _ => checkOps recog rcell eps ts
      | .ok lat =>
        if lat.name = "TRI" then checkOps recog rcell eps ts
        else
          match checkOps recog rcell eps ts with
          | .error e => .error e
          | .ok rs => .ok ((lat, t) :: rs)

/-- `check_type(rcell, name, eps)`: look the class name up in the static
table and run the transform loop. -/
def check_type (recog : Recognizer) (rcell : Mat3) (name : String)
    (eps : Frac) : Except EngineErr (List (BLat × Mat3)) :=
  match tableLookup name with
  | none => .error (.keyErr name)
  | some ops => checkOps recog rcell eps ops

/-- The inner double loop of `identify_lattice`: scan the canonical name
enumeration and, for each name, the results list in order; return the first
result whose lattice name matches. -/
def selectResult (results : List (BLat × Mat3)) : Option (BLat × Mat3) :=
  bravais_names.findSome? (fun name => results.find? (fun p => p.1.name = name))

/-- The scan over test classes in `identify_lattice`: run `check_type` for
each scanned class name in order and stop at the first class whose results
yield a selection. -/
def idScan (recog : Recognizer) (rcell : Mat3) (eps : Frac) :
    List String → Except EngineErr (Option (BLat × Mat3))
  | [] => .ok none
  | n :: ns =>
    match check_type recog rcell n eps with
    | .error e => .error e
    | .ok results =>
      match selectResult results with
      | some r => .ok (some r)
      | none => idScan recog rcell eps ns

/-- `identify_lattice(cell, eps)`, with the external Niggli reduction
service `niggli` (returning `(rcell, op)`) and the recognizer abstracted:
Niggli-reduce, scan the classes, and on success compose the transform as
`std_op @ inv(op)`; on exhaustion raise the terminal error carrying the
input cell parameters. -/
def identify_lattice (niggli : Mat3 → Mat3 × Mat3) (recog : Recognizer)
    (cell : Mat3) (eps : Frac) : Except EngineErr (BLat × Mat3) :=
  match idScan recog (niggli cell).1 eps scanNames with
  | .error e => .error e
  | .ok none => .error (.unrecognized (cellParams cell))
  | .ok (some (lat, stdOp)) =>
    match ((niggli cell).2).inv with
    | none => .error .linAlgErr
    | some opi => .ok (lat, stdOp.mul opi)

/-- Modelled from the spec: the two-pass selection scheme the spec ascribes
to the Classifier — first collect ALL `(lattice, transform)` successes
across every scanned class and transform into one list... -/
def collectAll (recog : Recognizer) (rcell : Mat3) (eps : Frac) :
    List String → Except EngineErr (List (BLat × Mat3))
  | [] => .ok []
  | n :: ns =>
    match check_type recog rcell n eps with
    | .error e => .error e
    | .ok rs =>
      match collectAll recog rcell eps ns with
      | .error e => .error e
      | .ok rest => .ok (rs ++ rest)

/-- Modelled from the spec: ...and only then scan the canonical name
enumeration once over the accumulated list, returning the earliest
canonical name that has any match; compose the transform the same way.
This is the comparison definition for the refinement claim about the
selection order of `identify_lattice`. -/
def identify_lattice_two_pass (niggli : Mat3 → Mat3 × Mat3)
    (recog : Recognizer) (cell : Mat3) (eps : Frac) :
    Except EngineErr (BLat × Mat3) :=
  match collectAll recog (niggli cell).1 eps scanNames with
  | .error e => .error e
  | .ok allResults =>
    match selectResult allResults with
    | none => .error (.unrecognized (cellParams cell))
    | some (lat, stdOp) =>
      match ((niggli cell).2).inv with
      | none => .error .linAlgErr
      | some opi => .ok (lat, stdOp.mul opi)

/-! ## The greedy lattice reducer

`greedy_lattice_reduce` mutates numpy arrays in place, so it is embedded
with an explicit array store: each numpy array is an entry of the store,
fancy indexing (`cell[args]`) allocates a fresh entry, and slice/row
assignments update an entry.  The only views the algorithm ever passes are
whole arrays and `cell[:-1]` headers, so a view is a pair (array index,
row count). -/

/-- The store of allocated numpy arrays, in allocation order. -/
abbrev ArrStore : Type := List (List Vec3)

/-- A view of the first `n` rows of array `aid`. -/
structure ArrView where
  aid : Nat
  n : Nat
deriving DecidableEq, Repr

/-- The rows a view denotes. -/
def readRows (st : ArrStore) (v : ArrView) : List Vec3 :=
  (st.getD v.aid []).take v.n

/-- Stable insertion by ascending squared norm (one step of a stable sort
modelling `np.argsort` on the squared lengths). -/
def insertByNorm (a : Vec3) : List Vec3 → List Vec3
  | [] => [a]
  | b :: bs =>
    if Frac.le (Vec3.sq b) (Vec3.sq a) then b :: insertByNorm a bs
    else a :: b :: bs

/-- Stable sort by ascending squared norm:
`cell[np.argsort((cell**2).sum(axis=1))]`. -/
def sortByNorm (rows : List Vec3) : List Vec3 :=
  rows.foldl (fun acc a => insertByNorm a acc) []

/-- Overwrite the leading rows of an array: the slice assignment
`cell[:-1] = newrows`. -/
def writeLeading (st : ArrStore) (aid : Nat) (rs : List Vec3) : ArrStore :=
  st.set aid (rs ++ (st.getD aid []).drop rs.length)

/-- Overwrite one row of an array: the assignment `cell[-1] -= closest`. -/
def writeRow (st : ArrStore) (aid : Nat) (idx : Nat) (a : Vec3) : ArrStore :=
  st.set aid ((st.getD aid []).set idx a)

/-- First strict minimizer of squared distance to `tvec`, modelling the
`mindist = np.inf` / `dist < mindist` scan over candidates. -/
def bestCandidate (tvec : Vec3) : List Vec3 → Option Vec3
  | [] => none
  | c :: cs =>
    some (cs.foldl (fun best cand =>
      if Frac.lt (Vec3.sq (Vec3.sub cand tvec)) (Vec3.sq (Vec3.sub best tvec))
      then cand else best) c)

/-- The H-matrix / closest-lattice-point part of one reduction pass, acting
on the last row of the view: build `H[i,j] = vdot(c_i, c_j)/vdot(c_i, c_i)`
from the first `n-1` rows, solve `y = H^-1 @ coords`, enumerate the
floor/ceil coefficient box in `itertools.product` order, pick the first
strict minimizer, and subtract it from the last row.  `none` models the
uncaught `LinAlgError` on a singular `H`; the source is rank-generic but
only ranks up to 3 are exercised (spec 4.1), so views of 2 or 3 rows are
covered. -/
def closestStep (st : ArrStore) (v : ArrView) : Option ArrStore :=
  match readRows st v with
  | [w0, tvec] =>
    let h00 := (Vec3.dot w0 w0).div (Vec3.dot w0 w0)
    if h00.num = 0 then none
    else
      let coord0 := (Vec3.dot w0 tvec).div (Vec3.dot w0 w0)
      let y0 := coord0.div h00
      let cands := [Vec3.zsmul y0.floor w0, Vec3.zsmul y0.ceil w0]
      match bestCandidate tvec cands with
      | none => none
      | some closest => some (writeRow st v.aid 1 (Vec3.sub tvec closest))
  | [w0, w1, tvec] =>
    let h00 := (Vec3.dot w0 w0).div (Vec3.dot w0 w0)
    let h01 := (Vec3.dot w0 w1).div (Vec3.dot w0 w0)
    let h10 := (Vec3.dot w1 w0).div (Vec3.dot w1 w1)
    let h11 := (Vec3.dot w1 w1).div (Vec3.dot w1 w1)
    let dH := (h00.mul h11).sub (h01.mul h10)
    if dH.num = 0 then none
    else
      let coord0 := (Vec3.dot w0 tvec).div (Vec3.dot w0 w0)
      let coord1 := (Vec3.dot w1 tvec).div (Vec3.dot w1 w1)
      let y0 := ((h11.mul coord0).sub (h01.mul coord1)).div dH
      let y1 := ((h00.mul coord1).sub (h10.mul coord0)).div dH
      let cands := [Vec3.add (Vec3.zsmul y0.floor w0) (Vec3.zsmul y1.floor w1),
                    Vec3.add (Vec3.zsmul y0.floor w0) (Vec3.zsmul y1.ceil w1),
                    Vec3.add (Vec3.zsmul y0.ceil w0) (Vec3.zsmul y1.floor w1),
                    Vec3.add (Vec3.zsmul y0.ceil w0) (Vec3.zsmul y1.ceil w1)]
      match bestCandidate tvec cands with
      | none => none
      | some closest => some (writeRow st v.aid 2 (Vec3.sub tvec closest))
  | _ => none

/-- A pending call of the reducer: either a fresh invocation
(`greedy_lattice_reduce(cell)`) or a resumption of its `while True` loop
with the current value of the Python variable `i` and the instrumented
count of completed outer passes. -/
inductive GlrCall where
  | main : ArrStore → ArrView → GlrCall
  | loop : ArrStore → ArrView → ℤ → Nat → GlrCall

/-- Fuel-indexed interpreter for `greedy_lattice_reduce`.  The result is
(store, view of the returned array, returned second component, instrumented
outer-pass count); `none` means the fuel ran out (the source has no
termination guarantee) or an uncaught numerical error occurred.

Faithfulness notes: `cell = cell[args]` allocates a fresh array (numpy
fancy indexing copies), so all later in-place updates hit that copy; the
statement `i += 1` is recorded but its value is dead, because the two
`for i in range(ndim - 1)` loops of the source leak their loop variable:
after them `i = ndim - 2`, and that is the value the `return cell, i`
statement ships. -/
def glrRun : Nat → GlrCall → Option (ArrStore × ArrView × ℤ × Nat)
  | 0, _ => none
  | Nat.succ fuel, .main st v =>
    -- if ndim == 1: return cell, 0
    if v.n = 1 then some (st, v, 0, 0)
    else glrRun fuel (.loop st v 0 0)
  | Nat.succ fuel, .loop st v i passes =>
    -- order vectors by norm into a fresh array (fancy indexing copies)
    let st1 := st ++ [sortByNorm (readRows st v)]
    let v1 : ArrView := ⟨st.length, v.n⟩
    -- cell[:-1], _ = greedy_lattice_reduce(cell[:-1])
    match glrRun fuel (.main st1 ⟨v1.aid, v1.n - 1⟩) with
    | none => none
    | some (st2, vsub, _, _) =>
      let st3 := writeLeading st2 v1.aid (readRows st2 vsub)
      let _i1 := i + 1
      -- the two for-loops clobber i; afterwards i = ndim - 2
      let iLeak : ℤ := (v.n : ℤ) - 2
      match closestStep st3 v1 with
      | none => none
      | some st4 =>
        let rows := readRows st4 v1
        let lastRow := rows.getD (v.n - 1) Vec3.zero
        let sndRow := rows.getD (v.n - 2) Vec3.zero
        -- if norm(cell[-1]) >= norm(cell[-2]): return cell, i
        if Frac.le (Vec3.sq sndRow) (Vec3.sq lastRow) then
          some (st4, v1, iLeak, passes + 1)
        else glrRun fuel (.loop st4 v1 iLeak (passes + 1))

/-- The initial call: the argument array is the single pre-existing store
entry, viewed whole. -/
def glrInit (cellRows : List Vec3) : GlrCall :=
  .main [cellRows] ⟨0, cellRows.length⟩

/-- `greedy_lattice_reduce(cell)` as the caller sees it: the rows of the
returned array and the returned counter value. -/
def greedy_lattice_reduce (fuel : Nat) (cellRows : List Vec3) :
    Option (List Vec3 × ℤ) :=
  (glrRun fuel (glrInit cellRows)).map (fun r => (readRows r.1 r.2.1, r.2.2.1))

/-- Instrumented variant that also exposes the true number of outer
reduction passes performed (not computed by the source; used to state
iteration-count properties). -/
def greedy_lattice_reduce_instr (fuel : Nat) (cellRows : List Vec3) :
    Option (List Vec3 × ℤ × Nat) :=
  (glrRun fuel (glrInit cellRows)).map
    (fun r => (readRows r.1 r.2.1, r.2.2.1, r.2.2.2))

/-- The store a pending call runs against (for frame statements). -/
def callStore : GlrCall → ArrStore
  | .main st _ => st
  | .loop st _ _ _ => st

/-! ## Table construction: the per-lattice step of `find_niggli_ops` -/

def matRows (m : Mat3) : List Vec3 := [m.r0, m.r1, m.r2]

def rowsToMat : List Vec3 → Option Mat3
  | [a, b, c] => some ⟨a, b, c⟩
  | _ => none

/-- The `1e-12` integrality tolerance of the table-construction asserts. -/
def tol12 : Frac := ⟨1, 1000000000000⟩

/-- The body of the `find_niggli_ops` sampling loop for one sampled
lattice cell, up to the production of the deduplication key `op_key`
(the occurrence-count bookkeeping is diagnostic).  Mirrors the source:
the greedy reducer runs first, its output is rebound to `cell`
(`cell = Cell(gcell)`), the external Niggli reduction is applied to that
rebound cell, the two integrality asserts and the cell-parameter
cross-check guard the result (`none` models an assertion failure or a
numerical error), and the key is the flattened rounded transform. -/
def findNiggliOpsKey (fuel : Nat) (niggli : Mat3 → Mat3 × Mat3)
    (cellM : Mat3) : Option (List ℤ) :=
  match greedy_lattice_reduce fuel (matRows cellM) with
  | none => none
  | some (gRows, _) =>
    match rowsToMat gRows with
    | none => none
    | some gcell =>
      if Frac.lt (matAbsErr (niggli gcell).2 (matRound (niggli gcell).2)) tol12
      then
        match ((niggli gcell).2).inv with
        | none => none
        | some invOpF =>
          if Frac.lt (matAbsErr invOpF (matRound invOpF)) tol12 then
            if listEqv (cellParams (((niggli gcell).2.transpose).mul gcell))
                (cellParams (niggli gcell).1) then
              some (matKey (niggli gcell).2)
            else none
          else none
      else none

/-- Modelled from the spec: the dataflow the spec claims for the same step
— the greedy reduction is diagnostic-only, and the Niggli reduction whose
transform becomes the deduplication key is applied to the sampled cell
itself.  Comparison definition for the refinement claim. -/
def findNiggliOpsKeyClaimed (fuel : Nat) (niggli : Mat3 → Mat3 × Mat3)
    (cellM : Mat3) : Option (List ℤ) :=
  match greedy_lattice_reduce fuel (matRows cellM) with
  | none => none
  | some _ =>
    if Frac.lt (matAbsErr (niggli cellM).2 (matRound (niggli cellM).2)) tol12
    then
      match ((niggli cellM).2).inv with
      | none => none
      | some invOpF =>
        if Frac.lt (matAbsErr invOpF (matRound invOpF)) tol12 then
          if listEqv (cellParams (((niggli cellM).2.transpose).mul cellM))
              (cellParams (niggli cellM).1) then
            some (matKey (niggli cellM).2)
          else none
        else none
    else none

/-! ## Concrete instances used in counterexamples and witnesses -/

/-- A Niggli service that returns its input with the identity transform. -/
def nigId : Mat3 → Mat3 × Mat3 := fun m => (m, Mat3.matId)

/-- A recognizer that rejects every candidate with a generic runtime
failure. -/
def recogFail : Recognizer := fun _ _ => .error .runtimeFailure

/-- A recognizer that accepts every candidate as a BCC lattice. -/
def recogBCC : Recognizer := fun _ _ => .ok ⟨"BCC", []⟩

/-- The second transform of the TET (and HEX, and BCT) table entries; a
cyclic permutation matrix, so `inv(pMat.transpose)` represents `pMat`. -/
def pMat : Mat3 := mkM 0 1 0 0 0 1 1 0 0

/-- A recognizer that labels the reduced cell itself HEX and the candidate
produced by the `pMat` table transform CUB, and rejects everything else:
scanning CUB (whose table holds only the identity) already yields a HEX
match, while the later TET scan would yield a CUB match — canonically
earlier.  Distinguishes the per-class early return of the source from the
two-pass global selection described by the spec. -/
def recogC1 : Recognizer := fun c _ =>
  if matEqv c Mat3.matId then .ok ⟨"HEX", []⟩
  else if matEqv c pMat then .ok ⟨"CUB", []⟩
  else .error .runtimeFailure

/-- A sampled cell whose greedy reduction differs from it: the greedy
reducer maps the third row (1,1,1) to (0,0,1). -/
def cellC : Mat3 := mkM 1 0 0 0 1 0 1 1 1

def negId : Mat3 := mkM (-1) 0 0 0 (-1) 0 0 0 (-1)

/-- A Niggli service whose transform depends on which cell it receives:
`-1` on the sampled cell `cellC`, the identity elsewhere (in particular on
the greedy-reduced cell).  Distinguishes which cell `find_niggli_ops`
actually Niggli-reduces. -/
def nigF : Mat3 → Mat3 × Mat3 :=
  fun m => (m, if matEqv m cellC then negId else Mat3.matId)

/-- A two-vector basis on which one greedy reduction pass runs. -/
def basis2 : List Vec3 :=
  [⟨⟨1, 1⟩, ⟨0, 1⟩, ⟨0, 1⟩⟩, ⟨⟨0, 1⟩, ⟨1, 1⟩, ⟨0, 1⟩⟩]

deriving instance DecidableEq for Except

/-! ## Helper lemmas -/

theorem checkOps_mem {recog : Recognizer} {rcell : Mat3} {eps : Frac} :
    ∀ {ops : List Mat3} {rs : List (BLat × Mat3)},
      checkOps recog rcell eps ops = .ok rs →
      ∀ lat t, (lat, t) ∈ rs →
        t ∈ ops ∧ ∃ ti, (t.transpose).inv = some ti ∧
          recog (ti.mul rcell) eps = .ok lat ∧ lat.name ≠ "TRI" := by
  intro ops
  induction ops with
  | nil =>
    intro rs h lat t hmem
    simp only [checkOps] at h
    cases h
    simp at hmem
  | cons t' ts ih =>
    intro rs h lat t hmem
    simp only [checkOps] at h
    split at h
    · cases h
    · rename_i ti hti
      split at h
      · rename_i e hrec
        have := ih h lat t hmem
        exact ⟨List.mem_cons_of_mem _ this.1, this.2⟩
      · rename_i lat' hrec
        split at h
        · rename_i htri
          have := ih h lat t hmem
          exact ⟨List.mem_cons_of_mem _ this.1, this.2⟩
        · rename_i htri
          split at h
          · cases h
          · rename_i rs' hrs'
            cases h
            rcases List.mem_cons.mp hmem with hhd | htl
            · obtain ⟨hl, ht⟩ := Prod.mk.inj hhd
              subst hl; subst ht
              exact ⟨List.mem_cons_self _ _, ti, hti, hrec, htri⟩
            · have := ih hrs' lat t htl
              exact ⟨List.mem_cons_of_mem _ this.1, this.2⟩

theorem checkOps_total {recog : Recognizer} {rcell : Mat3} {eps : Frac} :
    ∀ {ops : List Mat3}, (∀ t ∈ ops, ((t.transpose).inv).isSome) →
      ∃ rs, checkOps recog rcell eps ops = .ok rs := by
  intro ops
  induction ops with
  | nil => exact fun _ => ⟨[], rfl⟩
  | cons t ts ih =>
    intro hinv
    obtain ⟨ti, hti⟩ :=
      Option.isSome_iff_exists.mp (hinv t (List.mem_cons_self _ _))
    obtain ⟨rs, hrs⟩ := ih (fun u hu => hinv u (List.mem_cons_of_mem _ hu))
    cases hrec : recog (ti.mul rcell) eps with
    | error e => exact ⟨rs, by simp only [checkOps, hti, hrec, hrs]⟩
    | ok lat =>
      by_cases htri : lat.name = "TRI"
      · exact ⟨rs, by simp only [checkOps, hti, hrec, htri, if_pos, hrs]⟩
      · exact ⟨(lat, t) :: rs,
          by simp only [checkOps, hti, hrec, if_neg htri, hrs]⟩

theorem checkOps_nil_of_reject {recog : Recognizer} {rcell : Mat3}
    {eps : Frac}
    (hrej : ∀ c lat, recog c eps = .ok lat → lat.name = "TRI") :
    ∀ {ops : List Mat3}, (∀ t ∈ ops, ((t.transpose).inv).isSome) →
      checkOps recog rcell eps ops = .ok [] := by
  intro ops
  induction ops with
  | nil => exact fun _ => rfl
  | cons t ts ih =>
    intro hinv
    obtain ⟨ti, hti⟩ :=
      Option.isSome_iff_exists.mp (hinv t (List.mem_cons_self _ _))
    have hts := ih (fun u hu => hinv u (List.mem_cons_of_mem _ hu))
    cases hrec : recog (ti.mul rcell) eps with
    | error e => simp only [checkOps, hti, hrec, hts]
    | ok lat => simp only [checkOps, hti, hrec, hrej _ _ hrec, if_pos, hts]

theorem checkOps_no_keyErr {recog : Recognizer} {rcell : Mat3} {eps : Frac} :
    ∀ {ops : List Mat3} {m : String},
      checkOps recog rcell eps ops ≠ .error (.keyErr m) := by
  intro ops
  induction ops with
  | nil => intro m h; cases h
  | cons t ts ih =>
    intro m h
    simp only [checkOps] at h
    split at h
    · cases h
    · split at h
      · exact ih h
      · split at h
        · exact ih h
        · split at h
          · rename_i heq
            cases h
            exact ih heq
          · cases h

theorem table_keys_present : ∀ n ∈ scanNames, (tableLookup n).isSome := by
  decide

theorem table_ops_invertible :
    ∀ p ∈ niggli_op_table, ∀ t ∈ p.2, ((t.transpose).inv).isSome := by
  decide

theorem tableLookup_ops_invertible {name : String} {ops : List Mat3}
    (h : tableLookup name = some ops) :
    ∀ t ∈ ops, ((t.transpose).inv).isSome := by
  unfold tableLookup at h
  cases hf : niggli_op_table.find? (fun p => p.1 = name) with
  | none => rw [hf] at h; cases h
  | some pr =>
    rw [hf] at h
    injection h with h2
    subst h2
    exact table_ops_invertible pr (List.mem_of_find?_eq_some hf)

theorem findSome_decomp {α β : Type} (f : α → Option β) :
    ∀ (l : List α) (r : β), l.findSome? f = some r →
      ∃ pre a post, l = pre ++ a :: post ∧ f a = some r ∧
        ∀ m ∈ pre, f m = none := by
  intro l
  induction l with
  | nil => intro r h; simp [List.findSome?] at h
  | cons a l ih =>
    intro r h
    rw [List.findSome?_cons] at h
    cases hfa : f a with
    | some r' =>
      rw [hfa] at h
      injection h with h2
      subst h2
      exact ⟨[], a, l, rfl, hfa, by simp⟩
    | none =>
      rw [hfa] at h
      obtain ⟨pre, b, post, hl, hfb, hpre⟩ := ih r h
      refine ⟨a :: pre, b, post, by rw [hl]; rfl, hfb, ?_⟩
      intro m hm
      rcases List.mem_cons.mp hm with rfl | hm2
      · exact hfa
      · exact hpre m hm2

theorem selectResult_mem {rs : List (BLat × Mat3)} {r : BLat × Mat3}
    (h : selectResult rs = some r) : r ∈ rs := by
  unfold selectResult at h
  obtain ⟨pre, a, post, hl, hfa, hpre⟩ := findSome_decomp _ _ _ h
  exact List.mem_of_find?_eq_some hfa

theorem selectResult_canonical {rs : List (BLat × Mat3)} {r : BLat × Mat3}
    (h : selectResult rs = some r) :
    ∃ pre post, bravais_names = pre ++ r.1.name :: post ∧
      ∀ m ∈ pre, rs.find? (fun p => p.1.name = m) = none := by
  unfold selectResult at h
  obtain ⟨pre, a, post, hl, hfa, hpre⟩ := findSome_decomp _ _ _ h
  have hname : r.1.name = a := by
    have := List.find?_some hfa
    exact of_decide_eq_true this
  exact ⟨pre, post, by rw [hl, hname], hpre⟩

theorem idScan_decomp {recog : Recognizer} {rcell : Mat3} {eps : Frac} :
    ∀ {names : List String} {r : BLat × Mat3},
      idScan recog rcell eps names = .ok (some r) →
      ∃ pre c post, names = pre ++ c :: post ∧
        (∀ m ∈ pre, ∃ rs, check_type recog rcell m eps = .ok rs ∧
          selectResult rs = none) ∧
        ∃ rs, check_type recog rcell c eps = .ok rs ∧
          selectResult rs = some r := by
  intro names
  induction names with
  | nil => intro r h; cases h
  | cons n ns ih =>
    intro r h
    simp only [idScan] at h
    split at h
    · cases h
    · rename_i results hct
      split at h
      · rename_i r' hsel
        cases h
        exact ⟨[], n, ns, rfl, by simp, results, hct, hsel⟩
      · rename_i hsel
        obtain ⟨pre, c, post, hl, hpre, hlast⟩ := ih h
        refine ⟨n :: pre, c, post, by rw [hl]; rfl, ?_, hlast⟩
        intro m hm
        rcases List.mem_cons.mp hm with rfl | hm2
        · exact ⟨results, hct, hsel⟩
        · exact hpre m hm2

theorem identify_ok_inv {niggli : Mat3 → Mat3 × Mat3} {recog : Recognizer}
    {cell : Mat3} {eps : Frac} {lat : BLat} {M : Mat3}
    (h : identify_lattice niggli recog cell eps = .ok (lat, M)) :
    ∃ stdOp opi,
      idScan recog (niggli cell).1 eps scanNames = .ok (some (lat, stdOp)) ∧
      ((niggli cell).2).inv = some opi ∧ M = stdOp.mul opi := by
  unfold identify_lattice at h
  split at h
  · cases h
  · cases h
  · rename_i lat' stdOp hscan
    split at h
    · cases h
    · rename_i opi hopi
      injection h with h2
      obtain ⟨hl, hM⟩ := Prod.mk.inj h2
      subst hl
      exact ⟨stdOp, opi, hscan, hopi, hM.symm⟩

theorem check_type_ok_mem {recog : Recognizer} {rcell : Mat3} {eps : Frac}
    {name : String} {rs : List (BLat × Mat3)}
    (h : check_type recog rcell name eps = .ok rs) :
    ∃ ops, tableLookup name = some ops ∧
      ∀ lat t, (lat, t) ∈ rs →
        t ∈ ops ∧ ∃ ti, (t.transpose).inv = some ti ∧
          recog (ti.mul rcell) eps = .ok lat ∧ lat.name ≠ "TRI" := by
  unfold check_type at h
  split at h
  · cases h
  · rename_i ops hops
    exact ⟨ops, hops, checkOps_mem h⟩

theorem idScan_none_of_reject {recog : Recognizer} {rcell : Mat3}
    {eps : Frac}
    (hrej : ∀ c lat, recog c eps = .ok lat → lat.name = "TRI") :
    ∀ {names : List String}, (∀ n ∈ names, (tableLookup n).isSome) →
      idScan recog rcell eps names = .ok none := by
  intro names
  induction names with
  | nil => exact fun _ => rfl
  | cons n ns ih =>
    intro hk
    obtain ⟨ops, hops⟩ :=
      Option.isSome_iff_exists.mp (hk n (List.mem_cons_self _ _))
    have hnil : check_type recog rcell n eps = .ok [] := by
      unfold check_type
      rw [hops]
      exact checkOps_nil_of_reject hrej (tableLookup_ops_invertible hops)
    have hns := ih (fun m hm => hk m (List.mem_cons_of_mem _ hm))
    simp only [idScan, hnil]
    have hsel : selectResult ([] : List (BLat × Mat3)) = none := rfl
    simp only [hsel, hns]

theorem writeLeading_frame {st : ArrStore} {aid : Nat} {rs : List Vec3} :
    (writeLeading st aid rs).length = st.length ∧
    ∀ k, k ≠ aid → (writeLeading st aid rs).get? k = st.get? k := by
  refine ⟨List.length_set .., ?_⟩
  intro k hk
  exact List.get?_set_ne _ _ (fun h => hk h.symm)

theorem writeRow_frame {st : ArrStore} {aid idx : Nat} {a : Vec3} :
    (writeRow st aid idx a).length = st.length ∧
    ∀ k, k ≠ aid → (writeRow st aid idx a).get? k = st.get? k := by
  refine ⟨List.length_set .., ?_⟩
  intro k hk
  exact List.get?_set_ne _ _ (fun h => hk h.symm)

theorem closestStep_frame {st : ArrStore} {v : ArrView} {st4 : ArrStore}
    (h : closestStep st v = some st4) :
    st4.length = st.length ∧ ∀ k, k ≠ v.aid → st4.get? k = st.get? k := by
  simp only [closestStep] at h
  split at h
  · rename_i w0 tvec
    split at h
    · cases h
    · split at h
      · cases h
      · rename_i closest hbest
        injection h with h2
        subst h2
        exact writeRow_frame
  · rename_i w0 w1 tvec
    split at h
    · cases h
    · split at h
      · cases h
      · rename_i closest hbest
        injection h with h2
        subst h2
        exact writeRow_frame
  · cases h

theorem glrRun_frame :
    ∀ (fuel : Nat) (call : GlrCall) (stF : ArrStore) (vF : ArrView)
      (iF : ℤ) (pF : Nat),
      glrRun fuel call = some (stF, vF, iF, pF) →
      (callStore call).length ≤ stF.length ∧
      ∀ k, k < (callStore call).length → stF.get? k = (callStore call).get? k := by
  intro fuel
  induction fuel with
  | zero => intro call stF vF iF pF h; cases h
  | succ fuel ih =>
    intro call stF vF iF pF h
    cases call with
    | main st v =>
      simp only [glrRun] at h
      split at h
      · injection h with h2
        obtain ⟨h3, _⟩ := Prod.mk.inj h2
        subst h3
        exact ⟨Nat.le_refl _, fun k _ => rfl⟩
      · exact ih (.loop st v 0 0) _ _ _ _ h
    | loop st v i p =>
      simp only [glrRun] at h
      split at h
      · cases h
      · rename_i st2 vsub i2 p2 hsub
        have ih1 := ih _ _ _ _ _ hsub
        simp only [callStore] at ih1
        split at h
        · cases h
        · rename_i st4 hstep
          have hwl := @writeLeading_frame st2 st.length (readRows st2 vsub)
          have hcs := closestStep_frame hstep
          have hlen4 :
              st4.length = st2.length := by
            rw [hcs.1, hwl.1]
          have hlenA : st.length + 1 ≤ st2.length := by
            have := ih1.1
            simpa using this
          have hget4 : ∀ k, k < st.length → st4.get? k = st.get? k := by
            intro k hk
            have hne : k ≠ st.length := Nat.ne_of_lt hk
            rw [hcs.2 k hne, hwl.2 k hne]
            rw [ih1.2 k (by simp; omega)]
            exact List.get?_append hk
          split at h
          · injection h with h2
            obtain ⟨h3, _⟩ := Prod.mk.inj h2
            subst h3
            refine ⟨by simp only [callStore]; omega, ?_⟩
            intro k hk
            exact hget4 k hk
          · have ih2 := ih _ _ _ _ _ h
            simp only [callStore] at ih2 ⊢
            constructor
            · omega
            · intro k hk
              rw [ih2.2 k (by omega), hget4 k hk]

/-! ## Claim theorems -/

/-- C1, counterexample: the selection of `identify_lattice` does NOT follow
the two-pass scheme of the spec.  With the recognizer `recogC1`, the source
returns the HEX-named match found while scanning the first class (CUB),
although a CUB-named match — canonically earlier — exists under the later
TET scan and is the one the two-pass collect-then-select scheme returns. -/
theorem identify_lattice_not_two_pass :
    identify_lattice nigId recogC1 Mat3.matId ⟨1, 100⟩ =
      .ok (⟨"HEX", []⟩, Mat3.matId) ∧
    identify_lattice_two_pass nigId recogC1 Mat3.matId ⟨1, 100⟩ =
      .ok (⟨"CUB", []⟩, pMat) ∧
    identify_lattice nigId recogC1 Mat3.matId ⟨1, 100⟩ ≠
      identify_lattice_two_pass nigId recogC1 Mat3.matId ⟨1, 100⟩ :=
  ⟨by decide, by decide, by decide⟩

/-- C1 (amended): the results list is collected per scanned class, not
globally: `identify_lattice` returns from the first scanned class whose
`check_type` results yield a selection, and only within that class is the
canonical name enumeration scanned again, the earliest canonical name among
that class's accumulated results winning; the composed transform is
`std_op @ inv(niggli_op)`. -/
theorem identify_lattice_per_class_selection
    {niggli : Mat3 → Mat3 × Mat3} {recog : Recognizer} {cell : Mat3}
    {eps : Frac} {lat : BLat} {M : Mat3}
    (h : identify_lattice niggli recog cell eps = .ok (lat, M)) :
    ∃ pre c post, scanNames = pre ++ c :: post ∧
      (∀ m ∈ pre, ∃ rs, check_type recog (niggli cell).1 m eps = .ok rs ∧
        selectResult rs = none) ∧
      ∃ rs stdOp opi,
        check_type recog (niggli cell).1 c eps = .ok rs ∧
        selectResult rs = some (lat, stdOp) ∧
        ((niggli cell).2).inv = some opi ∧ M = stdOp.mul opi ∧
        ∃ preN postN, bravais_names = preN ++ lat.name :: postN ∧
          ∀ m ∈ preN, rs.find? (fun p => p.1.name = m) = none := by
  obtain ⟨stdOp, opi, hscan, hopi, hM⟩ := identify_ok_inv h
  obtain ⟨pre, c, post, hsplit, hpre, rs, hct, hsel⟩ := idScan_decomp hscan
  obtain ⟨preN, postN, hbn, hpreN⟩ := selectResult_canonical hsel
  exact ⟨pre, c, post, hsplit, hpre, rs, stdOp, opi, hct, hsel, hopi, hM,
    preN, postN, hbn, hpreN⟩

/-- C1, witness for the amended theorem at the `recogC1` instance. -/
theorem identify_lattice_per_class_selection_witness :
    ∃ pre c post, scanNames = pre ++ c :: post ∧
      (∀ m ∈ pre, ∃ rs,
        check_type recogC1 (nigId Mat3.matId).1 m ⟨1, 100⟩ = .ok rs ∧
        selectResult rs = none) ∧
      ∃ rs stdOp opi,
        check_type recogC1 (nigId Mat3.matId).1 c ⟨1, 100⟩ = .ok rs ∧
        selectResult rs = some (⟨"HEX", []⟩, stdOp) ∧
        ((nigId Mat3.matId).2).inv = some opi ∧
        Mat3.matId = stdOp.mul opi ∧
        ∃ preN postN,
          bravais_names = preN ++ (BLat.mk "HEX" []).name :: postN ∧
          ∀ m ∈ preN, rs.find? (fun p => p.1.name = m) = none :=
  identify_lattice_per_class_selection (by decide)

/-- C2: on success, `identify_lattice` used the Niggli-reduced cell
`rcell = (niggli cell).1`; the accepted candidate was
`inv(t.T) @ rcell` for a transform `t` of the scanned class's table entry;
and the returned transform is exactly `t @ inv(niggli_op)`. -/
theorem identify_lattice_dataflow
    {niggli : Mat3 → Mat3 × Mat3} {recog : Recognizer} {cell : Mat3}
    {eps : Frac} {lat : BLat} {M : Mat3}
    (h : identify_lattice niggli recog cell eps = .ok (lat, M)) :
    ∃ name ops t ti opi,
      name ∈ scanNames ∧ tableLookup name = some ops ∧ t ∈ ops ∧
      (t.transpose).inv = some ti ∧
      recog (ti.mul (niggli cell).1) eps = .ok lat ∧
      ((niggli cell).2).inv = some opi ∧ M = t.mul opi := by
  obtain ⟨stdOp, opi, hscan, hopi, hM⟩ := identify_ok_inv h
  obtain ⟨pre, c, post, hsplit, hpre, rs, hct, hsel⟩ := idScan_decomp hscan
  obtain ⟨ops, hops, hprop⟩ := check_type_ok_mem hct
  obtain ⟨htop, ti, hti, hrec, htri⟩ := hprop lat stdOp (selectResult_mem hsel)
  refine ⟨c, ops, stdOp, ti, opi, ?_, hops, htop, hti, hrec, hopi, hM⟩
  rw [hsplit]
  exact List.mem_append_right _ (List.mem_cons_self _ _)

/-- C2, witness at the `recogBCC` instance. -/
theorem identify_lattice_dataflow_witness :
    ∃ name ops t ti opi,
      name ∈ scanNames ∧ tableLookup name = some ops ∧ t ∈ ops ∧
      (t.transpose).inv = some ti ∧
      recogBCC (ti.mul (nigId Mat3.matId).1) ⟨0, 1⟩ = .ok ⟨"BCC", []⟩ ∧
      ((nigId Mat3.matId).2).inv = some opi ∧ Mat3.matId = t.mul opi :=
  identify_lattice_dataflow (by decide)

/-- C3: every transform of every entry of the static `niggli_op_table`,
read as a 3x3 matrix, is integer-valued to within 1e-12 and unimodular
(determinant +1 or -1); this holds for every class key in the table. -/
theorem niggli_op_table_unimodular :
    ∀ p ∈ niggli_op_table, ∀ t ∈ p.2,
      Frac.lt (matAbsErr t (matRound t)) tol12 ∧
      (Frac.eqv t.det (.ofInt 1) ∨ Frac.eqv t.det (.ofInt (-1))) := by
  decide

/-- C3, witness at the second TET transform. -/
theorem niggli_op_table_unimodular_witness :
    Frac.lt (matAbsErr pMat (matRound pMat)) tol12 ∧
    (Frac.eqv pMat.det (.ofInt 1) ∨ Frac.eqv pMat.det (.ofInt (-1))) :=
  niggli_op_table_unimodular ("TET", [Mat3.matId, pMat]) (by decide)
    pMat (by decide)

/-- C4 (code bug): on the two-vector basis `basis2` the reducer performs
exactly one outer pass (instrumented count 1) and terminates, but returns 0
as its second component, not the number of passes: the two
`for i in range(ndim - 1)` loops of the source clobber the counter `i`, so
the returned value is always `ndim - 2`. -/
theorem greedy_count_bug :
    greedy_lattice_reduce_instr 10 basis2 = some (basis2, 0, 1) := by decide

/-- C5, counterexample: the deduplication key of `find_niggli_ops` comes
from Niggli-reducing the greedy-reduced cell, not the sampled cell: with
the Niggli service `nigF` (transform -1 on the sampled cell `cellC`,
identity elsewhere), the source produces the identity key while the
dataflow claimed by the spec would produce the -1 key. -/
theorem find_niggli_ops_greedy_not_diagnostic :
    findNiggliOpsKey 12 nigF cellC = some [1, 0, 0, 0, 1, 0, 0, 0, 1] ∧
    findNiggliOpsKeyClaimed 12 nigF cellC =
      some [-1, 0, 0, 0, -1, 0, 0, 0, -1] ∧
    findNiggliOpsKey 12 nigF cellC ≠ findNiggliOpsKeyClaimed 12 nigF cellC :=
  ⟨by decide, by decide, by decide⟩

/-- C5 (amended): for every sampled lattice, the Niggli reduction whose
transform becomes the table's deduplication key is applied to the
greedy-reduced basis `Cell(gcell)` (the sampled cell rebound after greedy
reduction), so the greedy reducer's output is not diagnostic-only. -/
theorem find_niggli_ops_key_from_greedy {fuel : Nat}
    {niggli : Mat3 → Mat3 × Mat3} {cellM : Mat3} {key : List ℤ}
    (h : findNiggliOpsKey fuel niggli cellM = some key) :
    ∃ gRows cnt gcell,
      greedy_lattice_reduce fuel (matRows cellM) = some (gRows, cnt) ∧
      rowsToMat gRows = some gcell ∧
      key = matKey (niggli gcell).2 := by
  simp only [findNiggliOpsKey] at h
  split at h
  · cases h
  · rename_i gRows cnt hg
    split at h
    · cases h
    · rename_i gcell hgm
      split at h
      · split at h
        · cases h
        · rename_i invOpF hinv
          split at h
          · split at h
            · injection h with h2
              exact ⟨gRows, cnt, gcell, hg, hgm, h2.symm⟩
            · cases h
          · cases h
      · cases h

/-- C5, witness for the amended theorem at the `nigF` instance. -/
theorem find_niggli_ops_key_from_greedy_witness :
    ∃ gRows cnt gcell,
      greedy_lattice_reduce 12 (matRows cellC) = some (gRows, cnt) ∧
      rowsToMat gRows = some gcell ∧
      ([1, 0, 0, 0, 1, 0, 0, 0, 1] : List ℤ) = matKey (nigF gcell).2 :=
  find_niggli_ops_key_from_greedy (by decide)

/-- C6: whatever lattice object a successful `identify_lattice` call
returns, its class name is not TRI: TRI recognitions are filtered out in
`check_type` and never become results. -/
theorem identify_lattice_never_tri
    {niggli : Mat3 → Mat3 × Mat3} {recog : Recognizer} {cell : Mat3}
    {eps : Frac} {lat : BLat} {M : Mat3}
    (h : identify_lattice niggli recog cell eps = .ok (lat, M)) :
    lat.name ≠ "TRI" := by
  obtain ⟨stdOp, opi, hscan, -, -⟩ := identify_ok_inv h
  obtain ⟨pre, c, post, -, -, rs, hct, hsel⟩ := idScan_decomp hscan
  obtain ⟨ops, hops, hprop⟩ := check_type_ok_mem hct
  obtain ⟨-, ti, -, -, htri⟩ := hprop lat stdOp (selectResult_mem hsel)
  exact htri

/-- C6, witness at the `recogBCC` instance. -/
theorem identify_lattice_never_tri_witness : (BLat.mk "BCC" []).name ≠ "TRI" :=
  identify_lattice_never_tri
    (by decide : identify_lattice nigId recogBCC Mat3.matId ⟨0, 1⟩ =
      .ok (⟨"BCC", []⟩, Mat3.matId))

/-- C7: for a class name present in the table, `check_type` always returns
an ordinary results list — none of the three recognizer failure signals
escapes — and a transform on which the recognizer fails (with any of the
three signals) contributes no result: the scan simply continues past it. -/
theorem check_type_catches_failures {recog : Recognizer} {rcell : Mat3}
    {eps : Frac} {name : String} {ops : List Mat3}
    (hops : tableLookup name = some ops) :
    ∃ rs, check_type recog rcell name eps = .ok rs ∧
      ∀ t ∈ ops, ∀ ti, (t.transpose).inv = some ti →
        ∀ e, recog (ti.mul rcell) eps = .error e →
          ∀ lat, (lat, t) ∉ rs := by
  obtain ⟨rs, hrs⟩ := checkOps_total (tableLookup_ops_invertible hops)
  refine ⟨rs, by unfold check_type; rw [hops]; exact hrs, ?_⟩
  intro t htop ti hti e herr lat hmem
  obtain ⟨-, ti', hti', hrec, -⟩ := checkOps_mem hrs lat t hmem
  rw [hti] at hti'
  injection hti' with h2
  subst h2
  rw [herr] at hrec
  cases hrec

/-- C7, witness at the always-failing recognizer on class CUB. -/
theorem check_type_catches_failures_witness :
    ∃ rs, check_type recogFail Mat3.matId "CUB" ⟨0, 1⟩ = .ok rs ∧
      ∀ t ∈ [Mat3.matId], ∀ ti, (t.transpose).inv = some ti →
        ∀ e, recogFail (ti.mul Mat3.matId) ⟨0, 1⟩ = .error e →
          ∀ lat, (lat, t) ∉ rs :=
  check_type_catches_failures (by decide)

/-- C8: when the recognizer accepts no candidate (every acceptance would be
TRI, which is discarded), `identify_lattice` fails with exactly the single
terminal error carrying the input cell's parameters. -/
theorem identify_lattice_exhaustion {niggli : Mat3 → Mat3 × Mat3}
    {recog : Recognizer} {cell : Mat3} {eps : Frac}
    (hrej : ∀ c lat, recog c eps = .ok lat → lat.name = "TRI") :
    identify_lattice niggli recog cell eps =
      .error (.unrecognized (cellParams cell)) := by
  have hscan : idScan recog (niggli cell).1 eps scanNames = .ok none :=
    idScan_none_of_reject hrej table_keys_present
  unfold identify_lattice
  rw [hscan]

/-- C8, witness at the always-failing recognizer. -/
theorem identify_lattice_exhaustion_witness :
    identify_lattice nigId recogFail Mat3.matId ⟨0, 1⟩ =
      .error (.unrecognized (cellParams Mat3.matId)) :=
  identify_lattice_exhaustion (fun _ _ h => nomatch h)

/-- C9: `greedy_lattice_reduce` never mutates the array the caller passed:
after any successful run started by `glrInit`, array 0 of the store — the
caller's array — still holds the original rows (the basis is copied by the
fancy-indexed sort before any in-place write). -/
theorem greedy_preserves_caller {fuel : Nat} {cellRows : List Vec3}
    {stF : ArrStore} {vF : ArrView} {iF : ℤ} {pF : Nat}
    (h : glrRun fuel (glrInit cellRows) = some (stF, vF, iF, pF)) :
    stF.get? 0 = some cellRows := by
  have hfr := glrRun_frame fuel (glrInit cellRows) stF vF iF pF h
  have h0 := hfr.2 0 (by simp [glrInit, callStore])
  simpa [glrInit, callStore] using h0

/-- C9, witness on the two-vector basis. -/
theorem greedy_preserves_caller_witness :
    ([basis2, basis2] : ArrStore).get? 0 = some basis2 :=
  greedy_preserves_caller
    (by decide : glrRun 10 (glrInit basis2) =
      some ([basis2, basis2], ⟨1, 2⟩, 0, 1))

/-- C10: every class name `identify_lattice` scans (the canonical
enumeration minus TRI and the sub-3-dimensional classes) has an entry in
the static table, so the table lookup in `check_type` never raises the
missing-key error on any reachable classification path. -/
theorem check_type_no_keyerror {recog : Recognizer} {rcell : Mat3}
    {eps : Frac} {name : String} (hmem : name ∈ scanNames) :
    ∀ m, check_type recog rcell name eps ≠ .error (.keyErr m) := by
  intro m h
  obtain ⟨ops, hops⟩ :=
    Option.isSome_iff_exists.mp (table_keys_present name hmem)
  unfold check_type at h
  rw [hops] at h
  exact checkOps_no_keyErr h

/-- C10, witness at class CUB. -/
theorem check_type_no_keyerror_witness :
    check_type recogFail Mat3.matId "CUB" ⟨0, 1⟩ ≠ .error (.keyErr "CUB") :=
  check_type_no_keyerror (by decide) "CUB"
